import Mathlib

/-!
Verification of the zero-bin native witness builder against its source.

Shallow embedding of the Rust sources under `rpc/src`:
machine words (`H160`, `H256`, `U256`) are modelled as `Nat`, byte strings
as `List Nat`, Rust `HashMap`s as association lists with first-match lookup
(insertion prepends, which reproduces the replace-on-insert lookup
semantics), and Rust `HashSet`s as duplicate-free lists built by a
membership-guarded extend.  Library primitives that the repository calls
but does not define (keccak256, RLP list decoding, hex decoding) are passed
as explicit function parameters.
-/

/-- First-match association-list lookup, the model of `HashMap::get`. -/
def alookup {α : Type} : List (Nat × α) → Nat → Option α
  | [], _ => none
  | (k, v) :: rest, key => if k = key then some v else alookup rest key

/-- Model of `HashMap::insert`: prepending gives the same lookup semantics
as replace-on-insert. -/
def hmInsert {α : Type} (m : List (Nat × α)) (k : Nat) (v : α) : List (Nat × α) :=
  (k, v) :: m

/-- Model of `HashSet::extend`: add each element unless already present. -/
def hsExtend (s : List Nat) (xs : List Nat) : List Nat :=
  xs.foldl (fun acc k => if k ∈ acc then acc else acc ++ [k]) s

/-- Big-endian interpretation of a byte string, the model of
`U256::from_big_endian`. -/
def fromBigEndian (b : List Nat) : Nat :=
  b.foldl (fun acc x => acc * 256 + x) 0

/-- Minimal big-endian byte representation of a length, as used by the long
form of RLP string encoding. -/
def beBytes (n : Nat) : List Nat :=
  if h : n = 0 then [] else beBytes (n / 256) ++ [n % 256]
decreasing_by exact Nat.div_lt_self (Nat.pos_of_ne_zero h) (by omega)

/-- RLP encoding of a byte string, the behaviour of `rlp::encode` on a
`Vec<u8>` (single byte below 0x80 is itself; short strings get a
`0x80 + len` prefix; long strings get a length-of-length prefix). -/
def rlpEncodeBytes (b : List Nat) : List Nat :=
  if b.length = 1 ∧ b.headD 0 < 0x80 then b
  else if b.length ≤ 55 then (0x80 + b.length) :: b
  else (0xb7 + (beBytes b.length).length) :: (beBytes b.length ++ b)

/-- Embedding of `compute_receipt_bytes` (rpc/src/rpc/native/txn.rs).
`receipt_rlp` stands for `rlp::encode(tx_receipt)` (library code) and
`transaction_type` for `tx_receipt.transaction_type`; the Rust code takes
the low byte of the `U64` type (`tx_type.0[0] as u8`), prepends it and
re-encodes the result as an RLP byte string. -/
def compute_receipt_bytes (receipt_rlp : List Nat) (transaction_type : Option Nat) :
    List Nat :=
  match transaction_type with
  | some tx_type =>
      if tx_type ≠ 0 then rlpEncodeBytes (tx_type % 256 :: receipt_rlp)
      else receipt_rlp
  | none => receipt_rlp

/-- One write of the prev-hash fill loop: store the parent hash of block
`p.2` into slot `p.1`. -/
def fillStep (parentHash : Nat → Nat) (acc : List Nat) (p : Nat × Nat) : List Nat :=
  acc.set p.1 (parentHash p.2)

/-- Embedding of the `prev_hashes` fill of `fetch_other_block_data`
(rpc/src/metadata.rs): slots `255, 254, ...` are zipped with block numbers
`N, N-1, ..., 0` and each slot receives the fetched parent hash. -/
def prev_hashes_fill (parentHash : Nat → Nat) (target_block_number : Nat) : List Nat :=
  (((List.range 256).reverse).zip ((List.range (target_block_number + 1)).reverse)).foldl
    (fillStep parentHash) (List.replicate 256 0)

/-- One `eth_getProof` request: address, storage keys and block tag. -/
structure ProofRequest where
  address : Nat
  storage_keys : List Nat
  block_tag : Nat
deriving DecidableEq

/-- Embedding of `fetch_proof_data` (rpc/src/rpc/native/state.rs): the
first component models the `account_proofs` stream (parent-block tag), the
second the `next_account_proofs` stream (target-block tag). -/
def fetch_proof_data (accounts_state : List (Nat × List Nat)) (block_number : Nat) :
    List ProofRequest × List ProofRequest :=
  (accounts_state.map (fun p => ⟨p.1, p.2, block_number - 1⟩),
   accounts_state.map (fun p => ⟨p.1, p.2, block_number⟩))

/-- All requests issued by one call of `fetch_proof_data`. -/
def fetch_proof_data_requests (accounts_state : List (Nat × List Nat))
    (block_number : Nat) : List ProofRequest :=
  (fetch_proof_data accounts_state block_number).1 ++
    (fetch_proof_data accounts_state block_number).2

/-- Embedding of `ethers::types::AccountState`. -/
structure AccountState where
  balance : Option Nat := none
  nonce : Option Nat := none
  code : Option (List Nat) := none
  storage : Option (List (Nat × List Nat)) := none
deriving DecidableEq

/-- Embedding of `trace_decoder::trace_protocol::ContractCodeUsage`. -/
inductive ContractCodeUsage where
  | Read (hash : Nat)
  | Write (code : List Nat)
deriving DecidableEq

/-- Embedding of `trace_decoder::trace_protocol::TxnTrace`. -/
structure TxnTrace where
  balance : Option Nat
  nonce : Option Nat
  storage_read : Option (List Nat)
  storage_written : Option (List (Nat × Nat))
  code_usage : Option ContractCodeUsage
  self_destructed : Option Bool
deriving DecidableEq

/-- The `entry(key).or_insert(zero)` loop of `process_storage`: append a
zero write for every pre-state key not already present. -/
def writeZeros (m : List (Nat × Nat)) (ks : List Nat) : List (Nat × Nat) :=
  ks.foldl (fun acc k => if (alookup acc k).isSome then acc else acc ++ [(k, 0)]) m

/-- Embedding of `process_storage` (rpc/src/rpc/native/txn.rs): the read
set is the access-list keys extended with the read-trace storage keys; the
write map starts from the big-endian-converted post-diff storage and gains
a zero entry for every pre-diff key not already present; both key sets are
merged into the block-wide per-account storage keys; empty collections are
emitted as `none`. -/
def process_storage (storage_keys : List Nat) (access_list : List Nat)
    (acct_state post_acct pre_acct : Option AccountState) :
    List Nat × Option (List Nat) × Option (List (Nat × Nat)) :=
  let storage_read := hsExtend access_list
    (((acct_state.bind (·.storage)).getD []).map Prod.fst)
  let storage_written :=
    ((post_acct.bind (·.storage)).getD []).map (fun p => (p.1, fromBigEndian p.2))
  let storage_written :=
    writeZeros storage_written (((pre_acct.bind (·.storage)).getD []).map Prod.fst)
  let storage_keys :=
    hsExtend (hsExtend storage_keys (storage_written.map Prod.fst)) storage_read
  (storage_keys,
   if storage_read.isEmpty then none else some storage_read,
   if storage_written.isEmpty then none else some storage_written)

/-- Embedding of `process_code` (rpc/src/rpc/native/txn.rs).  The Rust
code is `post.code.map_or(read_branch, write_branch)`; `map_or` takes its
default by value, so the read branch (hex-decode, keccak, CodeDB insert)
is evaluated first in every case, before the post code is examined. -/
def process_code (keccak : List Nat → Nat)
    (post_state read_state : Option AccountState)
    (code_db : List (Nat × List Nat)) :
    Option ContractCodeUsage × List (Nat × List Nat) :=
  let readBranch : Option ContractCodeUsage × List (Nat × List Nat) :=
    match read_state.bind (·.code) with
    | some code => (some (ContractCodeUsage.Read (keccak code)),
        hmInsert code_db (keccak code) code)
    | none => (none, code_db)
  match post_state.bind (·.code) with
  | some code => (some (ContractCodeUsage.Write code),
      hmInsert readBranch.2 (keccak code) code)
  | none => readBranch

/-- Embedding of `process_self_destruct` (rpc/src/rpc/native/txn.rs). -/
def process_self_destruct (post_state pre_state : Option AccountState) :
    Option Bool :=
  if post_state.isNone ∧ pre_state.isSome then some true else none

/-- State threaded by the per-address loop of `process_tx_traces`: the
traces accumulated so far, the block-wide accounts state and the
process-wide code database. -/
structure ReconcilerState where
  traces : List (Nat × TxnTrace)
  accounts_state : List (Nat × List Nat)
  code_db : List (Nat × List Nat)

/-- Loop body of `process_tx_traces` for one address of the universe. -/
def process_address (keccak : List Nat → Nat)
    (access_list : List (Nat × List Nat))
    (read_trace pre_trace post_trace : List (Nat × AccountState))
    (st : ReconcilerState) (address : Nat) : ReconcilerState :=
  let storage_keys := (alookup st.accounts_state address).getD []
  let read_state := alookup read_trace address
  let pre_state := alookup pre_trace address
  let post_state := alookup post_trace address
  let balance := post_state.bind (·.balance)
  let ps := process_storage storage_keys ((alookup access_list address).getD [])
    read_state post_state pre_state
  let pc := process_code keccak post_state read_state st.code_db
  let nonce := match post_state.bind (·.nonce) with
    | some n => some n
    | none => match pc.1 with
      | some (ContractCodeUsage.Write _) => some 1
      | _ => none
  let self_destructed := process_self_destruct post_state pre_state
  { traces := st.traces ++ [(address,
      { balance := balance
        nonce := nonce
        storage_read := ps.2.1
        storage_written := ps.2.2
        code_usage := pc.1
        self_destructed := self_destructed })]
    accounts_state := hmInsert st.accounts_state address ps.1
    code_db := pc.2 }

/-- The per-transaction address universe of `process_tx_traces`: the keys
of the read trace, the post diff, the pre diff and the access list,
collected into a `HashSet`. -/
def tx_addresses (read_trace pre_trace post_trace : List (Nat × AccountState))
    (access_list : List (Nat × List Nat)) : List Nat :=
  hsExtend (hsExtend (hsExtend (hsExtend [] (read_trace.map Prod.fst))
    (post_trace.map Prod.fst)) (pre_trace.map Prod.fst)) (access_list.map Prod.fst)

/-- Embedding of `process_tx_traces` (rpc/src/rpc/native/txn.rs): fold the
per-address loop over the address universe, threading the block-wide
accounts state and code database. -/
def process_tx_traces (keccak : List Nat → Nat)
    (accounts_state code_db : List (Nat × List Nat))
    (access_list : List (Nat × List Nat))
    (read_trace pre_trace post_trace : List (Nat × AccountState)) :
    ReconcilerState :=
  (tx_addresses read_trace pre_trace post_trace access_list).foldl
    (process_address keccak access_list read_trace pre_trace post_trace)
    ⟨[], accounts_state, code_db⟩

/-- The `TxnTrace` emitted by `process_tx_traces` for one address.  The
emitted trace fields do not depend on the threaded accounts state or code
database (those are only written to), so the per-address trace is a pure
function of the traces and the access list. -/
def trace_for (keccak : List Nat → Nat) (access_list : List (Nat × List Nat))
    (read_trace pre_trace post_trace : List (Nat × AccountState))
    (address : Nat) : TxnTrace :=
  let read_state := alookup read_trace address
  let pre_state := alookup pre_trace address
  let post_state := alookup post_trace address
  let ps := process_storage [] ((alookup access_list address).getD [])
    read_state post_state pre_state
  let cu := (process_code keccak post_state read_state []).1
  { balance := post_state.bind (·.balance)
    nonce := match post_state.bind (·.nonce) with
      | some n => some n
      | none => match cu with
        | some (ContractCodeUsage.Write _) => some 1
        | _ => none
    storage_read := ps.2.1
    storage_written := ps.2.2
    code_usage := cu
    self_destructed := process_self_destruct post_state pre_state }

/-- The read set computed by `process_storage`: access-list keys extended
with the read-trace storage keys. -/
def read_set (access_list : List Nat) (acct_state : Option AccountState) : List Nat :=
  hsExtend access_list (((acct_state.bind (·.storage)).getD []).map Prod.fst)

/-- The write map computed by `process_storage`: big-endian-converted
post-diff storage, plus a zero entry for every missing pre-diff key. -/
def write_map (post_acct pre_acct : Option AccountState) : List (Nat × Nat) :=
  writeZeros (((post_acct.bind (·.storage)).getD []).map
      (fun p => (p.1, fromBigEndian p.2)))
    (((pre_acct.bind (·.storage)).getD []).map Prod.fst)

/-- Embedding of `mpt_trie::partial_trie::Node`. -/
inductive TrieNode where
  | empty
  | hashNode (h : Nat)
  | branch (children : List TrieNode) (value : List Nat)
  | ext (nibbles : List Nat) (child : TrieNode)
  | leaf (nibbles : List Nat) (value : List Nat)

/-- Embedding of `Nibbles::from_bytes_be`: two nibbles per byte, high
nibble first. -/
def toNibbles : List Nat → List Nat
  | [] => []
  | b :: rest => b / 16 :: b % 16 :: toNibbles rest

/-- The hex-prefix handling of `parse_extension_node` / `parse_leaf_node`:
pop the flag nibble, and pop the padding nibble too when the flag equals
the even-length flag (0 for extensions, 2 for leaves). -/
def hpDecode (evenFlag : Nat) (b : List Nat) : List Nat :=
  match toNibbles b with
  | [] => []
  | flag :: rest => if flag = evenFlag then rest.drop 1 else rest

/-- Embedding of `parse_leaf_node` (rpc/src/rpc/native/trie.rs). -/
def parseLeafNode (i0 i1 : List Nat) : TrieNode :=
  TrieNode.leaf (hpDecode 2 i0) i1

mutual

/-- Embedding of `decode_node` (rpc/src/rpc/native/trie.rs): dispatch on
the RLP list length and, for 2-item lists, on the high nibble of the first
byte of item 0; every other shape is fatal (`unreachable!`, modelled as
`none`), as is an empty item 0 (the Rust code indexes `bytes[0][0]`). -/
def decodeNode (rlpD : List Nat → List (List Nat)) (nodes : List (Nat × List Nat)) :
    Nat → List (List Nat) → Option TrieNode
  | 0, _ => none
  | fuel + 1, bytes =>
      if bytes.length = 17 then parseBranchNode rlpD nodes fuel bytes
      else
        match bytes with
        | [i0, i1] =>
            match i0 with
            | [] => none
            | b0 :: _ =>
                if b0 / 16 = 0 ∨ b0 / 16 = 1 then
                  parseExtensionNode rlpD nodes fuel i0 i1
                else if b0 / 16 = 2 ∨ b0 / 16 = 3 then
                  some (parseLeafNode i0 i1)
                else none
        | _ => none

/-- Embedding of `parse_branch_node` (rpc/src/rpc/native/trie.rs): the
sixteen child references (empty bytes give the default empty node) and the
terminator value. -/
def parseBranchNode (rlpD : List Nat → List (List Nat)) (nodes : List (Nat × List Nat)) :
    Nat → List (List Nat) → Option TrieNode
  | 0, _ => none
  | fuel + 1, bytes =>
      (parseChildren rlpD nodes fuel (bytes.take 16)).map
        (fun children => TrieNode.branch children (bytes.getD 16 []))

/-- The child-collection loop of `parse_branch_node`. -/
def parseChildren (rlpD : List Nat → List (List Nat)) (nodes : List (Nat × List Nat)) :
    Nat → List (List Nat) → Option (List TrieNode)
  | 0, _ => none
  | _ + 1, [] => some []
  | fuel + 1, item :: rest =>
      match (if item.isEmpty then some TrieNode.empty
             else parseChildNode rlpD nodes fuel item),
            parseChildren rlpD nodes fuel rest with
      | some c, some cs => some (c :: cs)
      | _, _ => none

/-- Embedding of `parse_extension_node` (rpc/src/rpc/native/trie.rs). -/
def parseExtensionNode (rlpD : List Nat → List (List Nat)) (nodes : List (Nat × List Nat)) :
    Nat → List Nat → List Nat → Option TrieNode
  | 0, _, _ => none
  | fuel + 1, i0, i1 =>
      (parseChildNode rlpD nodes fuel i1).map
        (fun child => TrieNode.ext (hpDecode 0 i0) child)

/-- Embedding of `parse_child_node` (rpc/src/rpc/native/trie.rs): a
reference shorter than 32 bytes is the child's RLP encoding decoded
inline; a 32-byte reference is a hash resolved through the node map
(`H256::from_slice` panics on any other length, modelled as `none`). -/
def parseChildNode (rlpD : List Nat → List (List Nat)) (nodes : List (Nat × List Nat)) :
    Nat → List Nat → Option TrieNode
  | 0, _ => none
  | fuel + 1, bytes =>
      if bytes.length < 32 then decodeNode rlpD nodes fuel (rlpD bytes)
      else if bytes.length = 32 then
        constructPartialTrie rlpD nodes fuel (fromBigEndian bytes)
      else none

/-- Embedding of `construct_partial_trie` (rpc/src/rpc/native/trie.rs): a
root absent from the node map stays a hash stub; a stored node is
RLP-decoded and parsed. -/
def constructPartialTrie (rlpD : List Nat → List (List Nat)) (nodes : List (Nat × List Nat)) :
    Nat → Nat → Option TrieNode
  | 0, _ => none
  | fuel + 1, h =>
      match alookup nodes h with
      | none => some (TrieNode.hashNode h)
      | some value => decodeNode rlpD nodes fuel (rlpD value)

end

/-- Embedding of `PartialTrieBuilder` (rpc/src/rpc/native/trie.rs). -/
structure PartialTrieBuilder where
  root : Nat
  nodes : List (Nat × List Nat)

/-- Embedding of `PartialTrieBuilder::insert_proof`: key every proof node
by its keccak hash. -/
def insert_proof (keccak : List Nat → Nat) (b : PartialTrieBuilder)
    (proof : List (List Nat)) : PartialTrieBuilder :=
  { b with nodes := proof.foldl (fun m node => hmInsert m (keccak node) node) b.nodes }

/-- Embedding of `PartialTrieBuilder::build`. -/
def build (rlpD : List Nat → List (List Nat)) (fuel : Nat)
    (b : PartialTrieBuilder) : Option TrieNode :=
  constructPartialTrie rlpD b.nodes fuel b.root

/-- Claim C4: `compute_receipt_bytes` returns `rlp(receipt)` unchanged when
`transaction_type` is absent or zero, and returns the outer RLP byte-string
encoding of the type byte prepended to `rlp(receipt)` when the type is set
and non-zero. -/
theorem compute_receipt_bytes_spec (r : List Nat) (t? : Option Nat) :
    ((t? = none ∨ t? = some 0) → compute_receipt_bytes r t? = r) ∧
    (∀ t, t? = some t → t ≠ 0 →
      compute_receipt_bytes r t? = rlpEncodeBytes (t % 256 :: r)) := by
  constructor
  · rintro (rfl | rfl) <;> simp [compute_receipt_bytes]
  · rintro t rfl ht
    simp [compute_receipt_bytes, ht]

/-- Witness for C4 at a concrete receipt encoding and type 2. -/
theorem compute_receipt_bytes_spec_witness :
    compute_receipt_bytes [0xc2, 0x01, 0x02] (some 2)
      = rlpEncodeBytes (2 % 256 :: [0xc2, 0x01, 0x02]) :=
  (compute_receipt_bytes_spec [0xc2, 0x01, 0x02] (some 2)).2 2 rfl (by decide)

theorem foldl_fillStep_length (ph : Nat → Nat) :
    ∀ (l : List (Nat × Nat)) (acc : List Nat),
      (l.foldl (fillStep ph) acc).length = acc.length := by
  intro l
  induction l with
  | nil => intro acc; rfl
  | cons p rest ih =>
      intro acc
      simp only [List.foldl_cons, ih, fillStep, List.length_set]

theorem foldl_fillStep_getD_not_mem (ph : Nat → Nat) :
    ∀ (l : List (Nat × Nat)) (acc : List Nat) (i : Nat),
      (∀ n, (i, n) ∉ l) →
      (l.foldl (fillStep ph) acc).getD i 0 = acc.getD i 0 := by
  intro l
  induction l with
  | nil => intro acc i _; rfl
  | cons p rest ih =>
      intro acc i hni
      have hne : p.1 ≠ i := by
        intro he
        exact hni p.2 (by simp [← he])
      have hrest : ∀ n, (i, n) ∉ rest := by
        intro n hn
        exact hni n (List.mem_cons_of_mem _ hn)
      simp only [List.foldl_cons]
      rw [ih _ i hrest]
      simp [fillStep, List.getD_eq_getElem?_getD, List.getElem?_set_ne hne]

theorem foldl_fillStep_getD_mem (ph : Nat → Nat) :
    ∀ (l : List (Nat × Nat)) (acc : List Nat) (i n : Nat),
      i < acc.length → (i, n) ∈ l → (∀ m, (i, m) ∈ l → m = n) →
      (l.foldl (fillStep ph) acc).getD i 0 = ph n := by
  intro l
  induction l with
  | nil => intro acc i n _ hmem _; cases hmem
  | cons p rest ih =>
      intro acc i n hlen hmem huniq
      simp only [List.foldl_cons]
      by_cases hrest : ∃ m, (i, m) ∈ rest
      · obtain ⟨m, hm⟩ := hrest
        have hmn : m = n := huniq m (List.mem_cons_of_mem _ hm)
        subst hmn
        exact ih _ i m (by simp [fillStep, hlen]) hm
          (fun m' hm' => huniq m' (List.mem_cons_of_mem _ hm'))
      · have hp : p = (i, n) := by
          rcases List.mem_cons.mp hmem with h | h
          · exact h.symm
          · exact absurd ⟨n, h⟩ hrest
        subst hp
        rw [foldl_fillStep_getD_not_mem ph rest _ i
          (fun m hm => hrest ⟨m, hm⟩)]
        simp [fillStep, List.getD_eq_getElem?_getD, List.getElem?_set_self hlen]

theorem mem_prev_hashes_pairs (N i n : Nat) :
    (i, n) ∈ ((List.range 256).reverse).zip ((List.range (N + 1)).reverse) ↔
      ∃ j, j < min 256 (N + 1) ∧ i = 255 - j ∧ n = N - j := by
  constructor
  · intro hmem
    obtain ⟨j, hj, heq⟩ := List.mem_iff_getElem.mp hmem
    have hj' : j < min 256 (N + 1) := by simpa using hj
    refine ⟨j, hj', ?_, ?_⟩
    · have := heq
      rw [List.getElem_zip] at this
      have hl1 : j < ((List.range 256).reverse).length := by simp; omega
      have h1 : ((List.range 256).reverse)[j] = 255 - j := by
        rw [List.getElem_reverse]
        simp
      rw [Prod.ext_iff] at this
      rw [h1] at this
      exact this.1.symm
    · have := heq
      rw [List.getElem_zip] at this
      have hl2 : j < ((List.range (N + 1)).reverse).length := by simp; omega
      have h2 : ((List.range (N + 1)).reverse)[j] = N - j := by
        rw [List.getElem_reverse]
        simp
      rw [Prod.ext_iff] at this
      rw [h2] at this
      exact this.2.symm
  · rintro ⟨j, hj, rfl, rfl⟩
    apply List.mem_iff_getElem.mpr
    refine ⟨j, by simpa using hj, ?_⟩
    rw [List.getElem_zip]
    have hl1 : j < ((List.range 256).reverse).length := by simp; omega
    have hl2 : j < ((List.range (N + 1)).reverse).length := by simp; omega
    have h1 : ((List.range 256).reverse)[j] = 255 - j := by
      rw [List.getElem_reverse]; simp
    have h2 : ((List.range (N + 1)).reverse)[j] = N - j := by
      rw [List.getElem_reverse]; simp
    rw [h1, h2]

/-- Claim C1 (amended): the prev-hash array is ordered oldest to newest.
Slot `i` holds the fetched parent hash of block `N - (255 - i)` when
`255 - i ≤ N` (so slot 255 holds the parent of the target block `N`, and
the slot reached by block 0 holds the fetched parent hash of the genesis
block), and the remaining oldest slots stay zero when `N < 255`. -/
theorem prev_hashes_layout (ph : Nat → Nat) (N i : Nat) (hi : i < 256) :
    (prev_hashes_fill ph N).getD i 0 =
      if 255 - i ≤ N then ph (N - (255 - i)) else 0 := by
  unfold prev_hashes_fill
  by_cases hcase : 255 - i ≤ N
  · rw [if_pos hcase]
    apply foldl_fillStep_getD_mem ph _ _ i (N - (255 - i))
      (by rw [List.length_replicate]; exact hi)
    · exact (mem_prev_hashes_pairs N i _).mpr ⟨255 - i, by omega, by omega, rfl⟩
    · intro m hm
      obtain ⟨j, hj, hij, rfl⟩ := (mem_prev_hashes_pairs N i m).mp hm
      omega
  · rw [if_neg hcase]
    rw [foldl_fillStep_getD_not_mem ph _ _ i ?_]
    · rw [List.getD_eq_getElem?_getD, List.getElem?_replicate, if_pos hi]
      rfl
    · intro n hn
      obtain ⟨j, hj, hij, rfl⟩ := (mem_prev_hashes_pairs N i n).mp hn
      omega

/-- Counterexample to claim C1 as stated: for target block 1, the claim
demands that slot 0 hold the parent hash of block 1, but the code writes
that hash into slot 255 and leaves slot 0 zero. -/
theorem prev_hashes_claim_counterexample :
    ¬ ∀ (ph : Nat → Nat) (N : Nat), ∀ i < 256,
        (prev_hashes_fill ph N).getD i 0 =
          if 0 < N - i then ph (N - i) else 0 := by
  intro h
  have h0 := h (fun k => k + 1) 1 0 (by norm_num)
  have h1 : (prev_hashes_fill (fun k => k + 1) 1).getD 0 0 = 0 := by decide
  rw [h1] at h0
  norm_num at h0

/-- Witness for the amended C1 layout at target block 3 and slot 255. -/
theorem prev_hashes_layout_witness :
    (prev_hashes_fill (fun k => k + 5) 3).getD 255 0 =
      if 255 - 255 ≤ 3 then (fun k => k + 5) (3 - (255 - 255)) else 0 :=
  prev_hashes_layout (fun k => k + 5) 3 255 (by norm_num)

/-- Counterexample to claim C2 as stated: with a single touched account and
target block 5, `fetch_proof_data` issues a request whose block tag is the
target block 5 itself, not the parent block 4. -/
theorem proof_requests_claim_counterexample :
    ¬ ∀ r ∈ fetch_proof_data_requests [(1, [])] 5, r.block_tag = 5 - 1 := by
  intro h
  have hmem : (⟨1, [], 5⟩ : ProofRequest) ∈ fetch_proof_data_requests [(1, [])] 5 := by
    decide
  have := h ⟨1, [], 5⟩ hmem
  norm_num at this

/-- Claim C2 (amended): every `eth_getProof` request issued by
`fetch_proof_data` takes its `(address, keys)` pair from the consolidated
accounts state (which, per `process_block_trace`, already contains the
beneficiary and every withdrawal address with empty key sets), and is
issued twice: once at the parent block `N - 1` (the `account_proofs`
stream) and once at the target block `N` itself (the `next_account_proofs`
stream used for short-node variants). -/
theorem proof_requests_targets (accounts_state : List (Nat × List Nat)) (N : Nat) :
    (∀ r ∈ (fetch_proof_data accounts_state N).1,
        r.block_tag = N - 1 ∧ (r.address, r.storage_keys) ∈ accounts_state) ∧
    (∀ r ∈ (fetch_proof_data accounts_state N).2,
        r.block_tag = N ∧ (r.address, r.storage_keys) ∈ accounts_state) := by
  constructor
  · intro r hr
    obtain ⟨p, hp, rfl⟩ := List.mem_map.mp hr
    exact ⟨rfl, hp⟩
  · intro r hr
    obtain ⟨p, hp, rfl⟩ := List.mem_map.mp hr
    exact ⟨rfl, hp⟩

/-- Witness for the amended C2 at a one-account access set and block 5. -/
theorem proof_requests_targets_witness :
    (⟨1, [], 4⟩ : ProofRequest).block_tag = 5 - 1 ∧
      ((⟨1, [], 4⟩ : ProofRequest).address,
        (⟨1, [], 4⟩ : ProofRequest).storage_keys) ∈ [(1, ([] : List Nat))] :=
  (proof_requests_targets [(1, [])] 5).1 ⟨1, [], 4⟩ (by decide)

theorem mem_hsExtend (xs : List Nat) : ∀ (s : List Nat) (x : Nat),
    x ∈ hsExtend s xs ↔ x ∈ s ∨ x ∈ xs := by
  induction xs with
  | nil => intro s x; simp [hsExtend]
  | cons k rest ih =>
      intro s x
      have hstep : hsExtend s (k :: rest)
          = hsExtend (if k ∈ s then s else s ++ [k]) rest := rfl
      rw [hstep, ih]
      by_cases hk : k ∈ s
      · simp only [if_pos hk, List.mem_cons]
        constructor
        · rintro (h | h)
          · exact Or.inl h
          · exact Or.inr (Or.inr h)
        · rintro (h | h | h)
          · exact Or.inl h
          · exact Or.inl (h ▸ hk)
          · exact Or.inr h
      · simp only [if_neg hk, List.mem_append, List.mem_singleton, List.mem_cons]
        tauto

theorem nodup_hsExtend (xs : List Nat) : ∀ (s : List Nat),
    s.Nodup → (hsExtend s xs).Nodup := by
  induction xs with
  | nil => intro s hs; exact hs
  | cons k rest ih =>
      intro s hs
      have hstep : hsExtend s (k :: rest)
          = hsExtend (if k ∈ s then s else s ++ [k]) rest := rfl
      rw [hstep]
      apply ih
      by_cases hk : k ∈ s
      · simpa [hk] using hs
      · simp [hk, List.nodup_append, hs]

theorem tx_addresses_nodup (read_trace pre_trace post_trace : List (Nat × AccountState))
    (access_list : List (Nat × List Nat)) :
    (tx_addresses read_trace pre_trace post_trace access_list).Nodup :=
  nodup_hsExtend _ _ (nodup_hsExtend _ _ (nodup_hsExtend _ _
    (nodup_hsExtend _ _ List.nodup_nil)))

theorem alookup_isSome_iff_mem {α : Type} (m : List (Nat × α)) (k : Nat) :
    (alookup m k).isSome ↔ k ∈ m.map Prod.fst := by
  induction m with
  | nil => simp [alookup]
  | cons p rest ih =>
      obtain ⟨k', v⟩ := p
      by_cases h : k' = k
      · subst h; simp [alookup]
      · simp [alookup, h, ih, Ne.symm h]

theorem alookup_eq_none_of_not_mem {α : Type} (m : List (Nat × α)) (k : Nat)
    (h : k ∉ m.map Prod.fst) : alookup m k = none := by
  have := (alookup_isSome_iff_mem m k).not.mpr h
  cases he : alookup m k
  · rfl
  · rw [he] at this; simp at this

theorem alookup_append_of_isSome {α : Type} (m m' : List (Nat × α)) (k : Nat)
    (h : (alookup m k).isSome) : alookup (m ++ m') k = alookup m k := by
  induction m with
  | nil => simp [alookup] at h
  | cons p rest ih =>
      obtain ⟨k', v⟩ := p
      by_cases he : k' = k
      · subst he; simp [alookup]
      · simp only [alookup, if_neg he] at h ⊢
        exact ih h

theorem alookup_append_of_none {α : Type} (m m' : List (Nat × α)) (k : Nat)
    (h : alookup m k = none) : alookup (m ++ m') k = alookup m' k := by
  induction m with
  | nil => simp [alookup]
  | cons p rest ih =>
      obtain ⟨k', v⟩ := p
      by_cases he : k' = k
      · subst he; simp [alookup] at h
      · simp only [alookup, if_neg he] at h ⊢
        exact ih h

theorem writeZeros_isSome_preserved (ks : List Nat) :
    ∀ (m : List (Nat × Nat)) (k : Nat), (alookup m k).isSome →
      alookup (writeZeros m ks) k = alookup m k := by
  induction ks with
  | nil => intro m k _; rfl
  | cons k' rest ih =>
      intro m k hk
      have hstep : writeZeros m (k' :: rest)
          = writeZeros (if (alookup m k').isSome then m else m ++ [(k', 0)]) rest := rfl
      rw [hstep]
      by_cases hk' : (alookup m k').isSome
      · rw [if_pos hk']; exact ih m k hk
      · rw [if_neg hk']
        rw [ih _ k (by rwa [alookup_append_of_isSome _ _ _ hk])]
        exact alookup_append_of_isSome _ _ _ hk

theorem writeZeros_zero (ks : List Nat) :
    ∀ (m : List (Nat × Nat)) (k : Nat), k ∈ ks → alookup m k = none →
      alookup (writeZeros m ks) k = some 0 := by
  induction ks with
  | nil => intro m k h _; cases h
  | cons k' rest ih =>
      intro m k hmem hnone
      have hstep : writeZeros m (k' :: rest)
          = writeZeros (if (alookup m k').isSome then m else m ++ [(k', 0)]) rest := rfl
      rw [hstep]
      by_cases he : k' = k
      · subst he
        rw [if_neg (by simp [hnone])]
        have hsome : alookup (m ++ [(k', 0)]) k' = some 0 := by
          rw [alookup_append_of_none _ _ _ hnone]; simp [alookup]
        rw [writeZeros_isSome_preserved rest _ k' (by simp [hsome])]
        exact hsome
      · have hmem' : k ∈ rest := by
          cases List.mem_cons.mp hmem with
          | inl h => exact absurd h.symm he
          | inr h => exact h
        by_cases hk' : (alookup m k').isSome
        · rw [if_pos hk']; exact ih m k hmem' hnone
        · rw [if_neg hk']
          refine ih _ k hmem' ?_
          rw [alookup_append_of_none _ _ _ hnone]
          simp [alookup, he]

theorem writeZeros_ne_nil (ks : List Nat) (m : List (Nat × Nat)) (k : Nat)
    (h : (alookup (writeZeros m ks) k).isSome) : writeZeros m ks ≠ [] := by
  intro hnil
  rw [hnil] at h
  simp [alookup] at h

theorem alookup_map_fromBE (s : List (Nat × List Nat)) (k : Nat) (v : List Nat)
    (hnd : (s.map Prod.fst).Nodup) (hmem : (k, v) ∈ s) :
    alookup (s.map (fun p => (p.1, fromBigEndian p.2))) k
      = some (fromBigEndian v) := by
  induction s with
  | nil => cases hmem
  | cons p rest ih =>
      obtain ⟨k', v'⟩ := p
      simp only [List.map_cons, List.nodup_cons] at hnd
      cases List.mem_cons.mp hmem with
      | inl h =>
          injection h with h1 h2
          subst h1; subst h2
          simp [alookup]
      | inr h =>
          have hne : k' ≠ k := by
            intro he
            subst he
            exact hnd.1 (by
              have : k' ∈ rest.map Prod.fst :=
                List.mem_map.mpr ⟨(k', v), h, rfl⟩
              exact this)
          simp only [List.map_cons, alookup, if_neg hne]
          exact ih hnd.2 h

theorem keys_map_fromBE (s : List (Nat × List Nat)) :
    (s.map (fun p => (p.1, fromBigEndian p.2))).map Prod.fst = s.map Prod.fst := by
  induction s with
  | nil => rfl
  | cons p rest ih => simp [ih]

theorem process_storage_snd (sk sk' al : List Nat)
    (a p q : Option AccountState) :
    (process_storage sk al a p q).2 = (process_storage sk' al a p q).2 := rfl

theorem process_code_fst (keccak : List Nat → Nat)
    (p r : Option AccountState) (db db' : List (Nat × List Nat)) :
    (process_code keccak p r db).1 = (process_code keccak p r db').1 := by
  unfold process_code
  cases hp : p.bind (·.code) <;> cases hr : r.bind (·.code) <;> simp

theorem process_address_traces (keccak : List Nat → Nat)
    (al : List (Nat × List Nat)) (r pre post : List (Nat × AccountState))
    (st : ReconcilerState) (a : Nat) :
    (process_address keccak al r pre post st a).traces
      = st.traces ++ [(a, trace_for keccak al r pre post a)] := by
  have hs : (process_storage ((alookup st.accounts_state a).getD [])
        ((alookup al a).getD []) (alookup r a) (alookup post a) (alookup pre a)).2
      = (process_storage [] ((alookup al a).getD [])
        (alookup r a) (alookup post a) (alookup pre a)).2 := rfl
  have hc : (process_code keccak (alookup post a) (alookup r a) st.code_db).1
      = (process_code keccak (alookup post a) (alookup r a) []).1 :=
    process_code_fst keccak _ _ _ _
  simp only [process_address, trace_for]
  rw [hs, hc]

theorem process_address_accounts (keccak : List Nat → Nat)
    (al : List (Nat × List Nat)) (r pre post : List (Nat × AccountState))
    (st : ReconcilerState) (a : Nat) :
    (process_address keccak al r pre post st a).accounts_state
      = (a, (process_storage ((alookup st.accounts_state a).getD [])
          ((alookup al a).getD []) (alookup r a) (alookup post a)
          (alookup pre a)).1) :: st.accounts_state := rfl

theorem foldl_process_address_traces (keccak : List Nat → Nat)
    (al : List (Nat × List Nat)) (r pre post : List (Nat × AccountState)) :
    ∀ (l : List Nat) (st : ReconcilerState),
      ((l.foldl (process_address keccak al r pre post) st).traces)
        = st.traces ++ l.map (fun a => (a, trace_for keccak al r pre post a)) := by
  intro l
  induction l with
  | nil => intro st; simp
  | cons a rest ih =>
      intro st
      simp only [List.foldl_cons, List.map_cons]
      rw [ih, process_address_traces]
      simp

theorem foldl_process_address_accounts_not_mem (keccak : List Nat → Nat)
    (al : List (Nat × List Nat)) (r pre post : List (Nat × AccountState)) :
    ∀ (l : List Nat) (st : ReconcilerState) (a : Nat), a ∉ l →
      alookup (l.foldl (process_address keccak al r pre post) st).accounts_state a
        = alookup st.accounts_state a := by
  intro l
  induction l with
  | nil => intro st a _; rfl
  | cons b rest ih =>
      intro st a ha
      have hb : b ≠ a := fun he => ha (he ▸ List.mem_cons_self b rest)
      have ha' : a ∉ rest := fun h => ha (List.mem_cons_of_mem _ h)
      simp only [List.foldl_cons]
      rw [ih _ a ha', process_address_accounts]
      simp [alookup, hb]

theorem foldl_process_address_accounts_mem (keccak : List Nat → Nat)
    (al : List (Nat × List Nat)) (r pre post : List (Nat × AccountState)) :
    ∀ (l : List Nat) (st : ReconcilerState) (a : Nat), l.Nodup → a ∈ l →
      alookup (l.foldl (process_address keccak al r pre post) st).accounts_state a
        = some (process_storage ((alookup st.accounts_state a).getD [])
            ((alookup al a).getD []) (alookup r a) (alookup post a)
            (alookup pre a)).1 := by
  intro l
  induction l with
  | nil => intro st a _ h; cases h
  | cons b rest ih =>
      intro st a hnd hmem
      have hnd' : rest.Nodup := (List.nodup_cons.mp hnd).2
      have hbrest : b ∉ rest := (List.nodup_cons.mp hnd).1
      simp only [List.foldl_cons]
      by_cases he : b = a
      · subst he
        rw [foldl_process_address_accounts_not_mem keccak al r pre post rest _ b hbrest,
          process_address_accounts]
        simp [alookup]
      · have hmem' : a ∈ rest := by
          cases List.mem_cons.mp hmem with
          | inl h => exact absurd h.symm he
          | inr h => exact h
        rw [ih _ a hnd' hmem', process_address_accounts]
        simp [alookup, he]

theorem mem_process_tx_traces (keccak : List Nat → Nat)
    (as_ cdb : List (Nat × List Nat)) (al : List (Nat × List Nat))
    (r pre post : List (Nat × AccountState)) (a : Nat) (t : TxnTrace) :
    (a, t) ∈ (process_tx_traces keccak as_ cdb al r pre post).traces ↔
      a ∈ tx_addresses r pre post al ∧ t = trace_for keccak al r pre post a := by
  unfold process_tx_traces
  rw [foldl_process_address_traces]
  simp only [List.nil_append, List.mem_map]
  constructor
  · rintro ⟨x, hx, heq⟩
    injection heq with h1 h2
    subst h1
    exact ⟨hx, h2.symm⟩
  · rintro ⟨hx, rfl⟩
    exact ⟨a, hx, rfl⟩

theorem process_storage_def (sk al : List Nat) (a p q : Option AccountState) :
    process_storage sk al a p q =
      (hsExtend (hsExtend sk ((write_map p q).map Prod.fst)) (read_set al a),
       if (read_set al a).isEmpty then none else some (read_set al a),
       if (write_map p q).isEmpty then none else some (write_map p q)) := rfl

theorem trace_for_fields (keccak : List Nat → Nat)
    (al : List (Nat × List Nat)) (r pre post : List (Nat × AccountState))
    (a : Nat) :
    trace_for keccak al r pre post a =
      { balance := (alookup post a).bind (·.balance)
        nonce := match (alookup post a).bind (·.nonce) with
          | some n => some n
          | none =>
            match (process_code keccak (alookup post a) (alookup r a) []).1 with
            | some (ContractCodeUsage.Write _) => some 1
            | _ => none
        storage_read :=
          if (read_set ((alookup al a).getD []) (alookup r a)).isEmpty then none
          else some (read_set ((alookup al a).getD []) (alookup r a))
        storage_written :=
          if (write_map (alookup post a) (alookup pre a)).isEmpty then none
          else some (write_map (alookup post a) (alookup pre a))
        code_usage := (process_code keccak (alookup post a) (alookup r a) []).1
        self_destructed :=
          process_self_destruct (alookup post a) (alookup pre a) } := rfl

/-- Claim C5: the emitted trace has `self_destructed = some true` exactly
when the address is a key of the diff pre map and not a key of the diff
post map; in every other case the field is unset. -/
theorem self_destruct_law (keccak : List Nat → Nat)
    (as_ cdb al : List (Nat × List Nat)) (r pre post : List (Nat × AccountState))
    (a : Nat) (t : TxnTrace)
    (h : (a, t) ∈ (process_tx_traces keccak as_ cdb al r pre post).traces) :
    (t.self_destructed = some true ↔
      a ∈ pre.map Prod.fst ∧ a ∉ post.map Prod.fst) ∧
    (t.self_destructed = some true ∨ t.self_destructed = none) := by
  obtain ⟨-, rfl⟩ := (mem_process_tx_traces keccak as_ cdb al r pre post a t).mp h
  rw [trace_for_fields]
  rw [← alookup_isSome_iff_mem, ← alookup_isSome_iff_mem]
  rcases hpost : alookup post a with _ | v <;>
    rcases hpre : alookup pre a with _ | w <;>
      simp [process_self_destruct]

/-- Witness for C5: one address present in the pre diff and absent from the
post diff is reported self-destructed. -/
theorem self_destruct_law_witness :
    ((trace_for (fun _ => 0) [] [] [(7, {})] [] 7).self_destructed = some true ↔
      7 ∈ ([(7, ({} : AccountState))].map Prod.fst) ∧
        7 ∉ (([] : List (Nat × AccountState)).map Prod.fst)) ∧
    ((trace_for (fun _ => 0) [] [] [(7, {})] [] 7).self_destructed = some true ∨
      (trace_for (fun _ => 0) [] [] [(7, {})] [] 7).self_destructed = none) :=
  self_destruct_law (fun _ => 0) [] [] [] [] [(7, {})] [] 7
    (trace_for (fun _ => 0) [] [] [(7, {})] [] 7) (by decide)

/-- Claim C7: when the emitted code usage is a `Write` and the post diff
sets no nonce, the emitted nonce is 1; otherwise the emitted nonce equals
the post-diff nonce, or is absent when the diff omits it. -/
theorem nonce_on_create (keccak : List Nat → Nat)
    (as_ cdb al : List (Nat × List Nat)) (r pre post : List (Nat × AccountState))
    (a : Nat) (t : TxnTrace)
    (h : (a, t) ∈ (process_tx_traces keccak as_ cdb al r pre post).traces) :
    (∀ n, (alookup post a).bind (·.nonce) = some n → t.nonce = some n) ∧
    ((alookup post a).bind (·.nonce) = none →
      ((∃ c, t.code_usage = some (ContractCodeUsage.Write c)) → t.nonce = some 1) ∧
      ((∀ c, t.code_usage ≠ some (ContractCodeUsage.Write c)) → t.nonce = none)) := by
  obtain ⟨-, rfl⟩ := (mem_process_tx_traces keccak as_ cdb al r pre post a t).mp h
  rw [trace_for_fields]
  refine ⟨?_, ?_⟩
  · intro n hn
    simp [hn]
  · intro hn
    rcases hcu : (process_code keccak (alookup post a) (alookup r a) []).1 with _ | u
    · refine ⟨?_, fun _ => by simp [hn, hcu]⟩
      rintro ⟨c, hc⟩
      simp [hcu] at hc
    · cases u with
      | Read hh =>
          refine ⟨?_, fun _ => by simp [hn, hcu]⟩
          rintro ⟨c, hc⟩
          simp [hcu] at hc
      | Write c =>
          refine ⟨fun _ => by simp [hn, hcu], ?_⟩
          intro hnone
          exact absurd (by simp [hcu]) (hnone c)

/-- Witness for C7: a contract creation whose post diff sets code but no
nonce is emitted with nonce 1. -/
theorem nonce_on_create_witness :
    (trace_for (fun _ => 0) [] [] []
      [(9, ({ code := some [0xaa] } : AccountState))] 9).nonce = some 1 :=
  ((nonce_on_create (fun _ => 0) [] [] [] [] []
      [(9, ({ code := some [0xaa] } : AccountState))] 9
      (trace_for (fun _ => 0) [] [] []
        [(9, ({ code := some [0xaa] } : AccountState))] 9)
      (by decide)).2 (by decide)).1 ⟨[0xaa], by decide⟩

/-- Claim C3: the emitted write map carries a zero entry for every pre-diff
storage key missing from the post diff, and the big-endian interpretation
of the post value for every post-diff storage key. -/
theorem storage_write_law (keccak : List Nat → Nat)
    (as_ cdb al : List (Nat × List Nat)) (r pre post : List (Nat × AccountState))
    (a : Nat) (t : TxnTrace)
    (h : (a, t) ∈ (process_tx_traces keccak as_ cdb al r pre post).traces)
    (hnd : ((((alookup post a).bind (·.storage)).getD []).map Prod.fst).Nodup) :
    (∀ k, k ∈ (((alookup pre a).bind (·.storage)).getD []).map Prod.fst →
       k ∉ (((alookup post a).bind (·.storage)).getD []).map Prod.fst →
       ∃ m, t.storage_written = some m ∧ alookup m k = some 0) ∧
    (∀ k v, (k, v) ∈ ((alookup post a).bind (·.storage)).getD [] →
       ∃ m, t.storage_written = some m ∧
         alookup m k = some (fromBigEndian v)) := by
  obtain ⟨-, rfl⟩ := (mem_process_tx_traces keccak as_ cdb al r pre post a t).mp h
  rw [trace_for_fields]
  constructor
  · intro k hkpre hkpost
    have hbase : alookup ((((alookup post a).bind (·.storage)).getD []).map
        (fun p => (p.1, fromBigEndian p.2))) k = none := by
      apply alookup_eq_none_of_not_mem
      rw [keys_map_fromBE]
      exact hkpost
    have hzero : alookup (write_map (alookup post a) (alookup pre a)) k = some 0 :=
      writeZeros_zero _ _ k hkpre hbase
    have hne : write_map (alookup post a) (alookup pre a) ≠ [] :=
      writeZeros_ne_nil _ _ k (by simp [write_map] at hzero ⊢; simp [hzero])
    refine ⟨write_map (alookup post a) (alookup pre a), ?_, hzero⟩
    cases hw : write_map (alookup post a) (alookup pre a) with
    | nil => exact absurd hw hne
    | cons x xs => simp [hw]
  · intro k v hkv
    have hbase : alookup ((((alookup post a).bind (·.storage)).getD []).map
        (fun p => (p.1, fromBigEndian p.2))) k = some (fromBigEndian v) :=
      alookup_map_fromBE _ k v hnd hkv
    have hval : alookup (write_map (alookup post a) (alookup pre a)) k
        = some (fromBigEndian v) := by
      rw [write_map, writeZeros_isSome_preserved _ _ k (by simp [hbase])]
      exact hbase
    have hne : write_map (alookup post a) (alookup pre a) ≠ [] :=
      writeZeros_ne_nil _ _ k (by simp [write_map] at hval ⊢; simp [hval])
    refine ⟨write_map (alookup post a) (alookup pre a), ?_, hval⟩
    cases hw : write_map (alookup post a) (alookup pre a) with
    | nil => exact absurd hw hne
    | cons x xs => simp [hw]

/-- Witness for C3: a slot cleared to zero (pre key 2, absent in post) and
a written slot (post key 5, value bytes 0x0042). -/
theorem storage_write_law_witness :
    (∀ k, k ∈ (((alookup [(3, ({ storage := some [(2, [7])] } : AccountState))] 3).bind
        (·.storage)).getD []).map Prod.fst →
       k ∉ (((alookup [(3, ({ storage := some [(5, [0x00, 0x42])] } : AccountState))] 3).bind
        (·.storage)).getD []).map Prod.fst →
       ∃ m, (trace_for (fun _ => 0) [] [] [(3, { storage := some [(2, [7])] })]
          [(3, { storage := some [(5, [0x00, 0x42])] })] 3).storage_written = some m ∧
         alookup m k = some 0) ∧
    (∀ k v, (k, v) ∈ ((alookup [(3, ({ storage := some [(5, [0x00, 0x42])] } : AccountState))] 3).bind
        (·.storage)).getD [] →
       ∃ m, (trace_for (fun _ => 0) [] [] [(3, { storage := some [(2, [7])] })]
          [(3, { storage := some [(5, [0x00, 0x42])] })] 3).storage_written = some m ∧
         alookup m k = some (fromBigEndian v)) :=
  storage_write_law (fun _ => 0) [] [] [] []
    [(3, { storage := some [(2, [7])] })]
    [(3, { storage := some [(5, [0x00, 0x42])] })] 3
    (trace_for (fun _ => 0) [] [] [(3, { storage := some [(2, [7])] })]
      [(3, { storage := some [(5, [0x00, 0x42])] })] 3)
    (by decide) (by decide)

/-- Claim C6: every address of a reconciled transaction trace is a key of
the block-wide accounts state (even with an empty key set), and that
address's key set contains every storage key of the trace's read list and
every key of its write map. -/
theorem access_coverage (keccak : List Nat → Nat)
    (as_ cdb al : List (Nat × List Nat)) (r pre post : List (Nat × AccountState))
    (a : Nat) (t : TxnTrace)
    (h : (a, t) ∈ (process_tx_traces keccak as_ cdb al r pre post).traces) :
    (alookup (process_tx_traces keccak as_ cdb al r pre post).accounts_state a).isSome ∧
    (∀ k, k ∈ t.storage_read.getD [] ∨
          k ∈ (t.storage_written.getD []).map Prod.fst →
       k ∈ (alookup
         (process_tx_traces keccak as_ cdb al r pre post).accounts_state a).getD []) := by
  obtain ⟨ha, rfl⟩ := (mem_process_tx_traces keccak as_ cdb al r pre post a t).mp h
  have hnd := tx_addresses_nodup r pre post al
  have hacc : alookup (process_tx_traces keccak as_ cdb al r pre post).accounts_state a
      = some (process_storage ((alookup as_ a).getD []) ((alookup al a).getD [])
          (alookup r a) (alookup post a) (alookup pre a)).1 := by
    unfold process_tx_traces
    exact foldl_process_address_accounts_mem keccak al r pre post _ ⟨[], as_, cdb⟩ a hnd ha
  refine ⟨by simp [hacc], ?_⟩
  intro k hk
  rw [hacc]
  simp only [Option.getD_some]
  rw [process_storage_def]
  rw [trace_for_fields] at hk
  simp only [mem_hsExtend]
  rcases hk with hk | hk
  · right
    by_cases he : (read_set ((alookup al a).getD []) (alookup r a)).isEmpty
    · simp [he] at hk
    · simpa [he] using hk
  · left; right
    by_cases he : (write_map (alookup post a) (alookup pre a)).isEmpty
    · simp [he] at hk
    · simpa [he] using hk

/-- Witness for C6: a read of slot 2 and a write of slot 5 both land in the
block-wide key set of address 3, which is itself a key of the accounts
state. -/
theorem access_coverage_witness :
    (alookup (process_tx_traces (fun _ => 0) [] [] []
        [(3, ({ storage := some [(2, [7])] } : AccountState))] []
        [(3, ({ storage := some [(5, [0x42])] } : AccountState))]).accounts_state 3).isSome ∧
    (∀ k, k ∈ (trace_for (fun _ => 0) []
          [(3, ({ storage := some [(2, [7])] } : AccountState))] []
          [(3, ({ storage := some [(5, [0x42])] } : AccountState))] 3).storage_read.getD [] ∨
          k ∈ ((trace_for (fun _ => 0) []
          [(3, ({ storage := some [(2, [7])] } : AccountState))] []
          [(3, ({ storage := some [(5, [0x42])] } : AccountState))] 3).storage_written.getD []).map Prod.fst →
       k ∈ (alookup (process_tx_traces (fun _ => 0) [] [] []
        [(3, ({ storage := some [(2, [7])] } : AccountState))] []
        [(3, ({ storage := some [(5, [0x42])] } : AccountState))]).accounts_state 3).getD []) :=
  access_coverage (fun _ => 0) [] [] []
    [(3, ({ storage := some [(2, [7])] } : AccountState))] []
    [(3, ({ storage := some [(5, [0x42])] } : AccountState))] 3
    (trace_for (fun _ => 0) []
      [(3, ({ storage := some [(2, [7])] } : AccountState))] []
      [(3, ({ storage := some [(5, [0x42])] } : AccountState))] 3)
    (by decide)

/-- Claim C10: because `map_or` evaluates its default argument eagerly,
`process_code` hex-decodes the read-trace code and inserts it into the
CodeDB even when the post trace also sets code and the returned usage is
`Write(post_code)`; absent a hash collision the CodeDB then holds the
pre-state code alongside the new code. -/
theorem code_db_keeps_pre_state_code (keccak : List Nat → Nat)
    (post read : Option AccountState) (db : List (Nat × List Nat)) (b : List Nat)
    (hread : read.bind (·.code) = some b) :
    (∀ b', post.bind (·.code) = some b' →
       (process_code keccak post read db).1 = some (ContractCodeUsage.Write b') ∧
       alookup (process_code keccak post read db).2 (keccak b') = some b' ∧
       (keccak b ≠ keccak b' →
         alookup (process_code keccak post read db).2 (keccak b) = some b)) ∧
    (post.bind (·.code) = none →
       (process_code keccak post read db).1
          = some (ContractCodeUsage.Read (keccak b)) ∧
       alookup (process_code keccak post read db).2 (keccak b) = some b) := by
  constructor
  · intro b' hb'
    simp only [process_code, hread, hb']
    refine ⟨by trivial, ?_, ?_⟩
    · simp [hmInsert, alookup]
    · intro hne
      simp [hmInsert, alookup, Ne.symm hne]
  · intro hb'
    simp only [process_code, hread, hb']
    exact ⟨by trivial, by simp [hmInsert, alookup]⟩

/-- Witness for C10: read code `[1]` and post code `[2, 3]` under a
length-valued hash land both codes in the CodeDB with usage
`Write [2, 3]`. -/
theorem code_db_keeps_pre_state_code_witness :
    (process_code (fun l => l.length)
        (some ({ code := some [2, 3] } : AccountState))
        (some ({ code := some [1] } : AccountState)) []).1
      = some (ContractCodeUsage.Write [2, 3]) ∧
    alookup (process_code (fun l => l.length)
        (some ({ code := some [2, 3] } : AccountState))
        (some ({ code := some [1] } : AccountState)) []).2
        ((fun l => l.length) [2, 3]) = some [2, 3] ∧
    ((fun l => l.length) [1] ≠ (fun l => l.length) [2, 3] →
      alookup (process_code (fun l => l.length)
        (some ({ code := some [2, 3] } : AccountState))
        (some ({ code := some [1] } : AccountState)) []).2
        ((fun l => l.length) [1]) = some [1]) :=
  (code_db_keeps_pre_state_code (fun l => l.length)
    (some ({ code := some [2, 3] } : AccountState))
    (some ({ code := some [1] } : AccountState)) [] [1] (by decide)).1 [2, 3] (by decide)

/-- Claim C8: `decode_node` decodes a 17-item list as a branch node; a
2-item list is an extension when the first item's high nibble is 0 or 1
and a leaf when it is 2 or 3, where the flag nibble is removed from the
path and, for the even-length flags (0 and 2), the following padding
nibble as well; any other list length or prefix nibble is fatal. -/
theorem decode_node_dispatch (rlpD : List Nat → List (List Nat))
    (nodes : List (Nat × List Nat)) (fuel : Nat) (bytes : List (List Nat)) :
    (bytes.length = 17 →
      decodeNode rlpD nodes (fuel + 1) bytes = parseBranchNode rlpD nodes fuel bytes) ∧
    (∀ b0 r1 i1, bytes = [b0 :: r1, i1] →
      ((b0 / 16 = 0 ∨ b0 / 16 = 1 →
         decodeNode rlpD nodes (fuel + 1) bytes
           = parseExtensionNode rlpD nodes fuel (b0 :: r1) i1) ∧
       (b0 / 16 = 2 ∨ b0 / 16 = 3 →
         decodeNode rlpD nodes (fuel + 1) bytes
           = some (TrieNode.leaf (hpDecode 2 (b0 :: r1)) i1)) ∧
       (4 ≤ b0 / 16 → decodeNode rlpD nodes (fuel + 1) bytes = none))) ∧
    (bytes.length ≠ 17 → bytes.length ≠ 2 →
      decodeNode rlpD nodes (fuel + 1) bytes = none) ∧
    (∀ b0 r1,
      hpDecode 0 (b0 :: r1)
        = (if b0 / 16 = 0 then toNibbles r1 else b0 % 16 :: toNibbles r1) ∧
      hpDecode 2 (b0 :: r1)
        = (if b0 / 16 = 2 then toNibbles r1 else b0 % 16 :: toNibbles r1)) ∧
    (∀ i0 i1, parseExtensionNode rlpD nodes (fuel + 1) i0 i1
      = (parseChildNode rlpD nodes fuel i1).map
          (fun child => TrieNode.ext (hpDecode 0 i0) child)) := by
  refine ⟨?_, ?_, ?_, ?_, ?_⟩
  · intro h17
    simp [decodeNode, h17]
  · rintro b0 r1 i1 rfl
    refine ⟨?_, ?_, ?_⟩
    · intro hext
      simp only [decodeNode]
      rw [if_neg (by simp), if_pos hext]
    · intro hleaf
      simp only [decodeNode]
      rw [if_neg (by simp), if_neg (by omega), if_pos hleaf]
      rfl
    · intro hbad
      simp only [decodeNode]
      rw [if_neg (by simp), if_neg (by omega), if_neg (by omega)]
  · intro h17 h2
    simp only [decodeNode]
    rw [if_neg h17]
    rcases bytes with _ | ⟨x, _ | ⟨y, _ | ⟨z, rest⟩⟩⟩
    · rfl
    · rfl
    · exact absurd rfl h2
    · rfl
  · intro b0 r1
    constructor
    · simp only [hpDecode, toNibbles]
      by_cases h0 : b0 / 16 = 0
      · rw [if_pos h0, if_pos h0]
        rfl
      · rw [if_neg h0, if_neg h0]
    · simp only [hpDecode, toNibbles]
      by_cases h2 : b0 / 16 = 2
      · rw [if_pos h2, if_pos h2]
        rfl
      · rw [if_neg h2, if_neg h2]
  · intro i0 i1
    rfl

/-- Witness for C8: the 2-item list `[[0x20, 0xab], [9]]` decodes as a
leaf with even-flag path `[0xa, 0xb]`. -/
theorem decode_node_dispatch_witness :
    0x20 / 16 = 2 ∨ 0x20 / 16 = 3 →
      decodeNode (fun _ => []) [] (0 + 1) [[0x20, 0xab], [9]]
        = some (TrieNode.leaf (hpDecode 2 (0x20 :: [0xab])) [9]) :=
  ((decode_node_dispatch (fun _ => []) [] 0 [[0x20, 0xab], [9]]).2.1
    0x20 [0xab] [9] rfl).2.1

/-- Claim C9: `build` returns a single hash stub when the declared root is
absent from the node map (and otherwise decodes the stored bytes); a child
reference shorter than 32 bytes is decoded inline from its own RLP, while
a 32-byte reference is looked up by hash in the node map, becoming a hash
stub when absent and being decoded from the stored bytes otherwise. -/
theorem partial_trie_stub_resolution (rlpD : List Nat → List (List Nat))
    (nodes : List (Nat × List Nat)) (fuel : Nat) (root : Nat) (b : List Nat)
    (builder : PartialTrieBuilder) :
    (alookup builder.nodes builder.root = none →
      build rlpD (fuel + 1) builder = some (TrieNode.hashNode builder.root)) ∧
    (alookup nodes root = none →
      constructPartialTrie rlpD nodes (fuel + 1) root
        = some (TrieNode.hashNode root)) ∧
    (∀ v, alookup nodes root = some v →
      constructPartialTrie rlpD nodes (fuel + 1) root
        = decodeNode rlpD nodes fuel (rlpD v)) ∧
    (b.length < 32 →
      parseChildNode rlpD nodes (fuel + 1) b
        = decodeNode rlpD nodes fuel (rlpD b)) ∧
    (b.length = 32 →
      parseChildNode rlpD nodes (fuel + 1) b
        = constructPartialTrie rlpD nodes fuel (fromBigEndian b) ∧
      (alookup nodes (fromBigEndian b) = none → 0 < fuel →
        parseChildNode rlpD nodes (fuel + 1) b
          = some (TrieNode.hashNode (fromBigEndian b)))) := by
  refine ⟨?_, ?_, ?_, ?_, ?_⟩
  · intro hroot
    simp [build, constructPartialTrie, hroot]
  · intro hroot
    simp [constructPartialTrie, hroot]
  · intro v hroot
    simp [constructPartialTrie, hroot]
  · intro hlen
    simp [parseChildNode, hlen]
  · intro hlen
    have h32 : ¬ b.length < 32 := by omega
    constructor
    · simp [parseChildNode, h32, hlen]
    · intro habs hfuel
      obtain ⟨f, rfl⟩ : ∃ f, fuel = f + 1 :=
        ⟨fuel - 1, by omega⟩
      simp [parseChildNode, h32, hlen, constructPartialTrie, habs]

/-- Witness for C9: a builder whose root 5 has no stored node builds to the
stub `hashNode 5`. -/
theorem partial_trie_stub_resolution_witness :
    build (fun _ => []) (0 + 1) ⟨5, []⟩ = some (TrieNode.hashNode 5) :=
  (partial_trie_stub_resolution (fun _ => []) [] 0 0 [] ⟨5, []⟩).1 rfl
